import Mathlib

/-!
# KAssistantDialog: page navigation

A shallow embedding of `src/kassistantdialog.cpp` (KWidgetsAddons) and a
verification of its page traversal (`getNext`, `getPrevious`), of the button
state computed by `_k_slotUpdateButtons`, of the navigation slots `back` and
`next`, and of the two flag maps.

The page model (`KPageWidgetModel`, `QModelIndex`) and the hash container
(`QHash`) are collaborators whose code is not part of the translated file; the
definitions of the first section model them.  An index is represented by the
rows on the way from the item up to the top level, which is the information the
item pointer of a real index gives access to.
-/

/-! ## The collaborators -/

/-- Modelled from the spec: the flag container `QHash<KPageWidgetItem *, bool>`, a
finite map from page handles to booleans.  A page handle is `some n`, the null
pointer is `none`; a key without an entry is mapped to `none`. -/
abbrev QHash := Option Nat → Option Bool

/-- Modelled from the spec: the hash a freshly constructed dialog holds, without
entries. -/
def QHash.empty : QHash := fun _ => none

/-- Modelled from the spec: `QHash::value(key, defaultValue)`, the stored value, or
the default when the key has no entry. -/
def QHash.value (h : QHash) (key : Option Nat) (defaultValue : Bool) : Bool :=
  match h key with
  | some b => b
  | none => defaultValue

/-- Modelled from the spec: the assignment `hash[key] = value`, which adds or
replaces the entry of `key` and touches no other entry. -/
def QHash.insert (h : QHash) (key : Option Nat) (value : Bool) : QHash :=
  fun k => if k = key then some value else h k

/-- Modelled from the spec: a node of the page model, holding a page handle and
the ordered list of its child nodes ("ordered children"). -/
inductive PageItem where
  | mk (mPageWidgetItem : Option Nat) (mChildItems : List PageItem)

/-- Modelled from the spec: the page handle stored in a node. -/
def PageItem.pageWidgetItem : PageItem → Option Nat
  | .mk p _ => p

/-- Modelled from the spec: the ordered children of a node. -/
def PageItem.childItems : PageItem → List PageItem
  | .mk _ cs => cs

/-- Modelled from the spec: the child in a given row, absent when the row is
negative or not smaller than the number of children. -/
def PageItem.child (it : PageItem) (row : Int) : Option PageItem :=
  if row < 0 then none else it.childItems.get? row.toNat

mutual
/-- Modelled from the spec: the number of nodes of a subtree, the node itself
included. -/
def PageItem.size : PageItem → Nat
  | .mk _ cs => 1 + PageItem.sizeList cs
/-- Modelled from the spec: the number of nodes of a list of subtrees. -/
def PageItem.sizeList : List PageItem → Nat
  | [] => 0
  | c :: cs => c.size + PageItem.sizeList cs
end

mutual
/-- Modelled from the spec: depth-first search of a subtree for the node holding a
page handle; the result is the list of rows leading from the found node up
to (and not including) the node the search started at. -/
def PageItem.findChild : PageItem → Option Nat → Option (List Nat)
  | .mk p cs, item => if p = item then some [] else PageItem.findChildIn cs 0 item
/-- Modelled from the spec: the search of `findChild` through a list of siblings
whose first element is in row `i`. -/
def PageItem.findChildIn : List PageItem → Nat → Option Nat → Option (List Nat)
  | [], _, _ => none
  | c :: cs, i, item =>
    match c.findChild item with
    | some path => some (path ++ [i])
    | none => PageItem.findChildIn cs (i + 1) item
end

/-- Modelled from the spec: the page model, an ordered list of top-level pages
each with its subtree ("Pages form a tree via a separate page-model
collaborator"). -/
structure KPageWidgetModel where
  topLevel : List PageItem

/-- Modelled from the spec: the hidden root node of the model; it holds no page
and its children are the top-level pages. -/
def KPageWidgetModel.rootItem (m : KPageWidgetModel) : PageItem :=
  PageItem.mk none m.topLevel

/-- Modelled from the spec: a tree index.  `invalid` is the default constructed
index; `valid row ancestors` designates the item in row `row` of the item
whose own row is the head of `ancestors`, and so on up to the top level. -/
inductive QModelIndex where
  | invalid
  | valid (row : Nat) (ancestors : List Nat)
  deriving DecidableEq, Repr

/-- Modelled from the spec: `QModelIndex::isValid`. -/
def QModelIndex.isValid : QModelIndex → Bool
  | .invalid => false
  | .valid _ _ => true

/-- Modelled from the spec: `QModelIndex::row`, which is -1 for the invalid
index. -/
def QModelIndex.row : QModelIndex → Int
  | .invalid => -1
  | .valid r _ => r

/-- Modelled from the spec: the rows from the designated item up to the top
level; empty for the invalid index, which stands for the root. -/
def QModelIndex.path : QModelIndex → List Nat
  | .invalid => []
  | .valid r anc => r :: anc

/-- Modelled from the spec: the node reached from the root by a list of rows,
nearest row first: the node of the remaining rows is the parent, and the
head selects one of its children. -/
def PageItem.itemAt (rootItem : PageItem) : List Nat → Option PageItem
  | [] => some rootItem
  | r :: anc => (PageItem.itemAt rootItem anc).bind (fun p => p.child r)

/-- Modelled from the spec: the node a valid index points to
(`QModelIndex::internalPointer`); a null pointer is `none`. -/
def KPageWidgetModel.internalPointer (m : KPageWidgetModel) : QModelIndex → Option PageItem
  | .invalid => none
  | .valid r anc => m.rootItem.itemAt (r :: anc)

/-- Modelled from the spec: `KPageWidgetModel::index(row, column, parent)`, the
index of the child of `parent` in the given row (child navigation); the
parent of the top-level pages is the invalid index.  The result is invalid
when there is no such child. -/
def KPageWidgetModel.index (m : KPageWidgetModel) (row _column : Int)
    (parent : QModelIndex) : QModelIndex :=
  let parentItem := if parent.isValid then m.internalPointer parent else some m.rootItem
  match parentItem.bind (fun p => p.child row) with
  | some _ => QModelIndex.valid row.toNat parent.path
  | none => QModelIndex.invalid

/-- Modelled from the spec: `KPageWidgetModel::parent(index)` (parent navigation),
invalid for the invalid index and for a top-level page. -/
def KPageWidgetModel.parent (_m : KPageWidgetModel) : QModelIndex → QModelIndex
  | .invalid => QModelIndex.invalid
  | .valid _ [] => QModelIndex.invalid
  | .valid _ (a :: anc) => QModelIndex.valid a anc

/-- Modelled from the spec: `QModelIndex::sibling(row, column)` (sibling
navigation): the child of the parent in the given row; the invalid index
has no model and hence no sibling. -/
def KPageWidgetModel.sibling (m : KPageWidgetModel) (idx : QModelIndex) (row column : Int) :
    QModelIndex :=
  if idx.isValid then m.index row column (m.parent idx) else QModelIndex.invalid

/-- Modelled from the spec: `KPageWidgetModel::item(index)`, the page handle for a
tree index, null for the invalid index. -/
def KPageWidgetModel.item (m : KPageWidgetModel) (idx : QModelIndex) : Option Nat :=
  if idx.isValid then (m.internalPointer idx).bind PageItem.pageWidgetItem else none

/-- Modelled from the spec: `KPageWidgetModel::index(item)`, the tree index of a
page handle: invalid for the null pointer and for a page that is not in the
model, else the index of the first node found depth first. -/
def KPageWidgetModel.indexOf (m : KPageWidgetModel) (item : Option Nat) : QModelIndex :=
  match item with
  | none => QModelIndex.invalid
  | some p =>
    match PageItem.findChildIn m.topLevel 0 (some p) with
    | some (r :: anc) => QModelIndex.valid r anc
    | _ => QModelIndex.invalid

/-! ## The dialog -/

/-- The state of the dialog: the members of `KAssistantDialog::Private` (the two
flag hashes, the page model, and the enabled and default state of the three
buttons), the current page owned by the dialog host, and whether the dialog
has been accepted. -/
structure KAssistantDialog where
  valid : QHash
  appropriate : QHash
  pageModel : KPageWidgetModel
  backEnabled : Bool
  nextEnabled : Bool
  nextDefault : Bool
  finishEnabled : Bool
  finishDefault : Bool
  currentPage : Option Nat
  accepted : Bool

namespace KAssistantDialog

/-- The do-while loop of `Private::getNext`, run for at most `fuel` iterations;
`none` means the iterations did not suffice. -/
def getNextLoop (pageModel : KPageWidgetModel) (appropriate : QHash) :
    Nat → QModelIndex → Option QModelIndex
  | 0, _ => none
  | fuel + 1, nextIndex =>
    let currentIndex := nextIndex
    let nextIndex := pageModel.index 0 0 currentIndex
    let nextIndex :=
      if !nextIndex.isValid then pageModel.sibling currentIndex (currentIndex.row + 1) 0
      else nextIndex
    if nextIndex.isValid && !appropriate.value (pageModel.item nextIndex) true then
      getNextLoop pageModel appropriate fuel nextIndex
    else
      some nextIndex

/-- The do-while loop of `Private::getPrevious`, run for at most `fuel`
iterations; `none` means the iterations did not suffice. -/
def getPreviousLoop (pageModel : KPageWidgetModel) (appropriate : QHash) :
    Nat → QModelIndex → Option QModelIndex
  | 0, _ => none
  | fuel + 1, nextIndex =>
    let currentIndex := nextIndex
    let nextIndex := pageModel.sibling currentIndex (currentIndex.row - 1) 0
    let nextIndex :=
      if !nextIndex.isValid then pageModel.parent currentIndex
      else nextIndex
    if nextIndex.isValid && !appropriate.value (pageModel.item nextIndex) true then
      getPreviousLoop pageModel appropriate fuel nextIndex
    else
      some nextIndex

/-- The candidate one iteration of the loop of `getNext` computes from the index
it starts at: the first child, or else the next sibling. -/
def nextStep (pageModel : KPageWidgetModel) (currentIndex : QModelIndex) :
    QModelIndex :=
  let nextIndex := pageModel.index 0 0 currentIndex
  if !nextIndex.isValid then pageModel.sibling currentIndex (currentIndex.row + 1) 0
  else nextIndex

/-- The candidate one iteration of the loop of `getPrevious` computes from the
index it starts at: the previous sibling, or else the parent. -/
def previousStep (pageModel : KPageWidgetModel) (currentIndex : QModelIndex) :
    QModelIndex :=
  let nextIndex := pageModel.sibling currentIndex (currentIndex.row - 1) 0
  if !nextIndex.isValid then pageModel.parent currentIndex
  else nextIndex

/-- Where `getPrevious` continues from an index: through it when it is a page
that is not appropriate, and no further otherwise. -/
def previousFrom (m : KPageWidgetModel) (a : QHash) (fuel : Nat) (p : QModelIndex) :
    Option QModelIndex :=
  if p.isValid && !a.value (m.item p) true then getPreviousLoop m a fuel p else some p

/-- The sum of `row + 1` over the rows of a path: the number of traversal steps
that lead from the root to the item. -/
def pathSteps : List Nat → Nat
  | [] => 0
  | r :: anc => r + 1 + pathSteps anc

/-- `Private::getNext`: the loop with as many iterations as the model has nodes
(the hidden root included), which `getNextLoop_terminates` shows to suffice. -/
def getNext (pageModel : KPageWidgetModel) (appropriate : QHash) (nextIndex : QModelIndex) :
    Option QModelIndex :=
  getNextLoop pageModel appropriate pageModel.rootItem.size nextIndex

/-- `Private::getPrevious`: the loop with one iteration more than the starting
index has steps to the root, which `getPreviousLoop_terminates` shows to
suffice. -/
def getPrevious (pageModel : KPageWidgetModel) (appropriate : QHash) (nextIndex : QModelIndex) :
    Option QModelIndex :=
  getPreviousLoop pageModel appropriate (pathSteps nextIndex.path + 1) nextIndex

/-- `KAssistantDialog::isValid`. -/
def isValid (d : KAssistantDialog) (page : Option Nat) : Bool :=
  d.valid.value page true

/-- `KAssistantDialog::isAppropriate`. -/
def isAppropriate (d : KAssistantDialog) (page : Option Nat) : Bool :=
  d.appropriate.value page true

/-- `Private::_k_slotUpdateButtons`. -/
def _k_slotUpdateButtons (d : KAssistantDialog) : Option KAssistantDialog := do
  let currentIndex := d.pageModel.indexOf d.currentPage
  let nextIndex ← getNext d.pageModel d.appropriate currentIndex
  let d := { d with finishEnabled := !nextIndex.isValid && d.isValid d.currentPage }
  let d := { d with nextEnabled := nextIndex.isValid && d.isValid d.currentPage }
  let d := { d with finishDefault := !nextIndex.isValid }
  let d := { d with nextDefault := nextIndex.isValid }
  let nextIndex ← getPrevious d.pageModel d.appropriate currentIndex
  some { d with backEnabled := nextIndex.isValid }

/-- Modelled from the spec: `setCurrentPage` of the dialog host, which stores the
new current page; the host then announces the change, and the connection
made in `Private::init` runs `_k_slotUpdateButtons`. -/
def setCurrentPage (d : KAssistantDialog) (page : Option Nat) : Option KAssistantDialog :=
  _k_slotUpdateButtons { d with currentPage := page }

/-- Modelled from the spec: `accept` of the dialog host, the terminal success
action. -/
def accept (d : KAssistantDialog) : KAssistantDialog :=
  { d with accepted := true }

/-- `KAssistantDialog::back`. -/
def back (d : KAssistantDialog) : Option KAssistantDialog := do
  let nextIndex ← getPrevious d.pageModel d.appropriate (d.pageModel.indexOf d.currentPage)
  if nextIndex.isValid then
    setCurrentPage d (d.pageModel.item nextIndex)
  else
    some d

/-- `KAssistantDialog::next`. -/
def next (d : KAssistantDialog) : Option KAssistantDialog := do
  let nextIndex ← getNext d.pageModel d.appropriate (d.pageModel.indexOf d.currentPage)
  if nextIndex.isValid then
    setCurrentPage d (d.pageModel.item nextIndex)
  else if d.isValid d.currentPage then
    some (accept d)
  else
    some d

/-- `KAssistantDialog::setValid`. -/
def setValid (d : KAssistantDialog) (page : Option Nat) (enable : Bool) :
    Option KAssistantDialog :=
  let d := { d with valid := d.valid.insert page enable }
  if page = d.currentPage then _k_slotUpdateButtons d else some d

/-- `KAssistantDialog::setAppropriate`. -/
def setAppropriate (d : KAssistantDialog) (page : Option Nat) (appropriate : Bool) :
    Option KAssistantDialog :=
  let d := { d with appropriate := d.appropriate.insert page appropriate }
  _k_slotUpdateButtons d

/-- The state after the constructor `KAssistantDialog(widget, parent, flags)`:
empty flag hashes, the model of the page widget, and the three buttons as
`Private::init` creates them (enabled, `nextButton` the default). -/
def create (pageModel : KPageWidgetModel) (currentPage : Option Nat) : KAssistantDialog :=
  { valid := QHash.empty
    appropriate := QHash.empty
    pageModel := pageModel
    backEnabled := true
    nextEnabled := true
    nextDefault := true
    finishEnabled := true
    finishDefault := false
    currentPage := currentPage
    accepted := false }

end KAssistantDialog

/-! ## Calls of the dialog -/

/-- A call of one of the state changing members of the dialog: the two flag
setters and the two navigation slots. -/
inductive DialogCall where
  | setValid (page : Option Nat) (enable : Bool)
  | setAppropriate (page : Option Nat) (appropriate : Bool)
  | back
  | next
  deriving DecidableEq

/-- The dialog after a call. -/
def DialogCall.apply (d : KAssistantDialog) : DialogCall → Option KAssistantDialog
  | .setValid page enable => d.setValid page enable
  | .setAppropriate page appropriate => d.setAppropriate page appropriate
  | .back => d.back
  | .next => d.next

/-- The dialog after a sequence of calls, first call first. -/
def DialogCall.applyAll : List DialogCall → KAssistantDialog → Option KAssistantDialog
  | [], d => some d
  | c :: cs, d => (DialogCall.apply d c).bind (DialogCall.applyAll cs)

/-! ## The traversal of the spec -/

/-- The next sibling of the nearest item on a path (the item itself, then its
ancestors) that has one, as the spec describes the step of the traversal
from a page without children. -/
def nextSiblingOfNearest (m : KPageWidgetModel) : List Nat → QModelIndex
  | [] => QModelIndex.invalid
  | r :: anc =>
    match m.rootItem.itemAt ((r + 1) :: anc) with
    | some _ => QModelIndex.valid (r + 1) anc
    | none => nextSiblingOfNearest m anc

/-- The depth-first successor step as the spec describes it: descend to the
first child; if there is none, advance to the next sibling of the nearest
ancestor that has one. -/
def preorderStep (m : KPageWidgetModel) (current : QModelIndex) : QModelIndex :=
  match m.rootItem.itemAt (0 :: current.path) with
  | some _ => QModelIndex.valid 0 current.path
  | none => nextSiblingOfNearest m current.path

/-- The successor search as the spec describes it: repeat the depth-first
successor step, skipping every candidate whose appropriate flag is false,
until an appropriate page is found or the tree is exhausted; at most `fuel`
steps are made. -/
def preorderSearch (m : KPageWidgetModel) (a : QHash) : Nat → QModelIndex → Option QModelIndex
  | 0, _ => none
  | fuel + 1, current =>
    let candidate := preorderStep m current
    if candidate.isValid && !a.value (m.item candidate) true then
      preorderSearch m a fuel candidate
    else
      some candidate

/-! ## Example models -/

/-- A page without sub-pages. -/
def leafPage (p : Nat) : PageItem := PageItem.mk (some p) []

/-- The flat model of a list of pages: every page is top-level and childless. -/
def flatModel (pages : List Nat) : KPageWidgetModel :=
  { topLevel := pages.map leafPage }

/-- The model of three levels: top-level pages 1 and 5, where page 1 has the
sub-pages 2 and 4, and page 2 has the sub-page 3. -/
def skipModel : KPageWidgetModel :=
  { topLevel := [PageItem.mk (some 1) [PageItem.mk (some 2) [leafPage 3], leafPage 4],
      leafPage 5] }

/-- The model of two top-level pages 1 and 3, where page 1 has the single
sub-page 2. -/
def nestedModel : KPageWidgetModel :=
  { topLevel := [PageItem.mk (some 1) [leafPage 2], leafPage 3] }

/-! ## The page model -/

theorem QHash.value_insert_same (h : QHash) (p : Option Nat) (b dflt : Bool) :
    (h.insert p b).value p dflt = b := by
  simp [QHash.value, QHash.insert]

theorem QHash.value_insert_other (h : QHash) (p q : Option Nat) (b dflt : Bool) (hq : q ≠ p) :
    (h.insert p b).value q dflt = h.value q dflt := by
  simp [QHash.value, QHash.insert, hq]

theorem PageItem.child_natCast (it : PageItem) (k : Nat) :
    it.child (k : Int) = it.childItems.get? k := by
  simp [PageItem.child]

theorem PageItem.child_neg (it : PageItem) (row : Int) (h : row < 0) :
    it.child row = none := by
  simp [PageItem.child, h]

theorem PageItem.child_pred (it : PageItem) (k : Nat) (c : PageItem)
    (h : it.child ((k + 1 : Nat) : Int) = some c) : ∃ b, it.child (k : Int) = some b := by
  rw [PageItem.child_natCast] at h
  rw [PageItem.child_natCast]
  have hlt : k + 1 < it.childItems.length := by
    by_contra hn
    rw [List.get?_eq_none.mpr (by omega)] at h
    cases h
  exact ⟨it.childItems.get ⟨k, by omega⟩, List.get?_eq_get (by omega)⟩

theorem PageItem.size_pos (it : PageItem) : 1 ≤ it.size := by
  cases it with
  | mk p cs => simp [PageItem.size]

theorem PageItem.sizeList_get (cs : List PageItem) (k : Nat) (c : PageItem)
    (h : cs.get? k = some c) : k + c.size ≤ PageItem.sizeList cs := by
  induction cs generalizing k with
  | nil => simp at h
  | cons a as ih =>
    cases k with
    | zero =>
      simp at h
      subst h
      simp [PageItem.sizeList]
    | succ j =>
      simp at h
      have h1 := ih j (by simpa using h)
      have h2 := PageItem.size_pos a
      simp [PageItem.sizeList]
      omega

theorem PageItem.child_size (it : PageItem) (k : Nat) (c : PageItem)
    (h : it.child (k : Int) = some c) : k + 1 + c.size ≤ it.size := by
  rw [PageItem.child_natCast] at h
  cases it with
  | mk p cs =>
    have h1 := PageItem.sizeList_get cs k c h
    simp [PageItem.size]
    omega

theorem PageItem.itemAt_size (rootItem : PageItem) (path : List Nat) (x : PageItem)
    (h : rootItem.itemAt path = some x) :
    KAssistantDialog.pathSteps path + x.size ≤ rootItem.size := by
  induction path generalizing x with
  | nil =>
    simp [PageItem.itemAt] at h
    subst h
    simp [KAssistantDialog.pathSteps]
  | cons r anc ih =>
    simp only [PageItem.itemAt] at h
    cases hp : rootItem.itemAt anc with
    | none => simp [hp] at h
    | some p =>
      simp [hp] at h
      have h1 := ih p hp
      have h2 := PageItem.child_size p r x h
      simp [KAssistantDialog.pathSteps]
      omega

theorem KPageWidgetModel.parentItem_eq (m : KPageWidgetModel) (p : QModelIndex) :
    (if p.isValid then m.internalPointer p else some m.rootItem) = m.rootItem.itemAt p.path := by
  cases p <;> simp [QModelIndex.isValid, KPageWidgetModel.internalPointer, QModelIndex.path,
    PageItem.itemAt]

theorem KPageWidgetModel.parent_path (m : KPageWidgetModel) (r : Nat) (anc : List Nat) :
    (m.parent (QModelIndex.valid r anc)).path = anc := by
  cases anc <;> simp [KPageWidgetModel.parent, QModelIndex.path]

theorem KPageWidgetModel.index_natCast (m : KPageWidgetModel) (k : Nat) (c : Int)
    (p : QModelIndex) :
    m.index (k : Int) c p =
      match m.rootItem.itemAt (k :: p.path) with
      | some _ => QModelIndex.valid k p.path
      | none => QModelIndex.invalid := by
  simp only [KPageWidgetModel.index, KPageWidgetModel.parentItem_eq, PageItem.itemAt,
    Int.toNat_ofNat]

theorem KPageWidgetModel.index_neg (m : KPageWidgetModel) (row c : Int) (p : QModelIndex)
    (h : row < 0) : m.index row c p = QModelIndex.invalid := by
  simp only [KPageWidgetModel.index, KPageWidgetModel.parentItem_eq]
  cases hp : m.rootItem.itemAt p.path with
  | none => simp
  | some x => simp [PageItem.child_neg x row h]

theorem KPageWidgetModel.index_zero (m : KPageWidgetModel) (c : Int) (p : QModelIndex) :
    m.index 0 c p =
      match m.rootItem.itemAt (0 :: p.path) with
      | some _ => QModelIndex.valid 0 p.path
      | none => QModelIndex.invalid := by
  have h := m.index_natCast 0 c p
  simpa using h

theorem KPageWidgetModel.sibling_natCast (m : KPageWidgetModel) (r : Nat) (anc : List Nat)
    (k : Nat) (c : Int) :
    m.sibling (QModelIndex.valid r anc) (k : Int) c =
      match m.rootItem.itemAt (k :: anc) with
      | some _ => QModelIndex.valid k anc
      | none => QModelIndex.invalid := by
  simp only [KPageWidgetModel.sibling, QModelIndex.isValid, if_true,
    KPageWidgetModel.index_natCast, KPageWidgetModel.parent_path]

theorem PageItem.itemAt_pred (rootItem : PageItem) (k : Nat) (anc : List Nat) (x : PageItem)
    (h : rootItem.itemAt ((k + 1) :: anc) = some x) :
    ∃ y, rootItem.itemAt (k :: anc) = some y := by
  simp only [PageItem.itemAt] at h ⊢
  cases hp : rootItem.itemAt anc with
  | none => simp [hp] at h
  | some p =>
    simp only [hp, Option.bind_some] at h ⊢
    exact PageItem.child_pred p k x h

/-! ## The traversal steps -/

namespace KAssistantDialog

theorem getNextLoop_succ (m : KPageWidgetModel) (a : QHash) (fuel : Nat) (idx : QModelIndex) :
    getNextLoop m a (fuel + 1) idx =
      if (nextStep m idx).isValid && !a.value (m.item (nextStep m idx)) true then
        getNextLoop m a fuel (nextStep m idx)
      else some (nextStep m idx) := rfl

theorem getPreviousLoop_succ (m : KPageWidgetModel) (a : QHash) (fuel : Nat)
    (idx : QModelIndex) :
    getPreviousLoop m a (fuel + 1) idx =
      if (previousStep m idx).isValid && !a.value (m.item (previousStep m idx)) true then
        getPreviousLoop m a fuel (previousStep m idx)
      else some (previousStep m idx) := rfl

/-- What `nextStep` computes, case by case. -/
theorem nextStep_cases (m : KPageWidgetModel) (idx : QModelIndex) :
    ((∃ x, m.rootItem.itemAt (0 :: idx.path) = some x) ∧
        nextStep m idx = QModelIndex.valid 0 idx.path) ∨
    (m.rootItem.itemAt (0 :: idx.path) = none ∧
      ((idx = QModelIndex.invalid ∧ nextStep m idx = QModelIndex.invalid) ∨
       (∃ r anc, idx = QModelIndex.valid r anc ∧
          ((∃ x, m.rootItem.itemAt ((r + 1) :: anc) = some x) ∧
              nextStep m idx = QModelIndex.valid (r + 1) anc ∨
           m.rootItem.itemAt ((r + 1) :: anc) = none ∧
              nextStep m idx = QModelIndex.invalid)))) := by
  cases h0 : m.rootItem.itemAt (0 :: idx.path) with
  | some x =>
    left
    refine ⟨⟨x, rfl⟩, ?_⟩
    simp [nextStep, KPageWidgetModel.index_zero, h0, QModelIndex.isValid]
  | none =>
    right
    refine ⟨rfl, ?_⟩
    cases idx with
    | invalid =>
      left
      refine ⟨rfl, ?_⟩
      simp only [QModelIndex.path] at h0
      simp [nextStep, KPageWidgetModel.index_zero, h0, QModelIndex.isValid,
        KPageWidgetModel.sibling, QModelIndex.path]
    | valid r anc =>
      right
      refine ⟨r, anc, rfl, ?_⟩
      simp only [QModelIndex.path] at h0
      have hrow : (QModelIndex.valid r anc).row + 1 = ((r + 1 : Nat) : Int) := by
        simp [QModelIndex.row]
      cases h1 : m.rootItem.itemAt ((r + 1) :: anc) with
      | some x =>
        left
        refine ⟨⟨x, rfl⟩, ?_⟩
        simp only [nextStep, KPageWidgetModel.index_zero, QModelIndex.path, h0, hrow,
          KPageWidgetModel.sibling_natCast, h1]
        simp [QModelIndex.isValid]
      | none =>
        right
        refine ⟨rfl, ?_⟩
        simp only [nextStep, KPageWidgetModel.index_zero, QModelIndex.path, h0, hrow,
          KPageWidgetModel.sibling_natCast, h1]
        simp [QModelIndex.isValid]

end KAssistantDialog

namespace KAssistantDialog

theorem parent_valid_path (m : KPageWidgetModel) (k : Nat) (idx : QModelIndex) :
    m.parent (QModelIndex.valid k idx.path) = idx := by
  cases idx <;> simp [QModelIndex.path, KPageWidgetModel.parent]

/-- What `previousStep` computes, case by case. -/
theorem previousStep_invalid (m : KPageWidgetModel) :
    previousStep m QModelIndex.invalid = QModelIndex.invalid := by
  simp [previousStep, KPageWidgetModel.sibling, QModelIndex.isValid, KPageWidgetModel.parent]

theorem previousStep_zero (m : KPageWidgetModel) (anc : List Nat) :
    previousStep m (QModelIndex.valid 0 anc) = m.parent (QModelIndex.valid 0 anc) := by
  have h : m.sibling (QModelIndex.valid 0 anc) ((QModelIndex.valid 0 anc).row - 1) 0
      = QModelIndex.invalid := by
    simp only [KPageWidgetModel.sibling, QModelIndex.isValid, if_true]
    exact m.index_neg _ _ _ (by simp [QModelIndex.row])
  simp [previousStep, h, QModelIndex.isValid]

theorem previousStep_succ (m : KPageWidgetModel) (k : Nat) (anc : List Nat) :
    previousStep m (QModelIndex.valid (k + 1) anc) =
      match m.rootItem.itemAt (k :: anc) with
      | some _ => QModelIndex.valid k anc
      | none => m.parent (QModelIndex.valid (k + 1) anc) := by
  have hrow : (QModelIndex.valid (k + 1) anc).row - 1 = ((k : Nat) : Int) := by
    simp [QModelIndex.row]
  simp only [previousStep, hrow, KPageWidgetModel.sibling_natCast]
  cases m.rootItem.itemAt (k :: anc) <;> simp [QModelIndex.isValid]

/-- A valid candidate of `nextStep` designates an item of the model, one step
further from the root, and `previousStep` leads back from it. -/
theorem nextStep_valid (m : KPageWidgetModel) (idx : QModelIndex)
    (h : (nextStep m idx).isValid = true) :
    (∃ x, m.rootItem.itemAt (nextStep m idx).path = some x) ∧
    pathSteps (nextStep m idx).path = pathSteps idx.path + 1 ∧
    previousStep m (nextStep m idx) = idx := by
  rcases nextStep_cases m idx with ⟨⟨x, hx⟩, hn⟩ | ⟨h0, hc⟩
  · rw [hn]
    refine ⟨⟨x, hx⟩, ?_, ?_⟩
    · show pathSteps (0 :: idx.path) = pathSteps idx.path + 1
      simp only [pathSteps]
      omega
    · rw [previousStep_zero, parent_valid_path]
  · rcases hc with ⟨_, hn⟩ | ⟨r, anc, hidx, hc⟩
    · rw [hn] at h
      simp [QModelIndex.isValid] at h
    · rcases hc with ⟨⟨x, hx⟩, hn⟩ | ⟨_, hn⟩
      · rw [hn]
        subst hidx
        refine ⟨⟨x, hx⟩, ?_, ?_⟩
        · simp [QModelIndex.path, pathSteps]
          omega
        · obtain ⟨y, hy⟩ := PageItem.itemAt_pred _ r anc x hx
          rw [previousStep_succ, hy]
      · rw [hn] at h
        simp [QModelIndex.isValid] at h

/-- From an index that designates no item of the model the candidate is
invalid. -/
theorem nextStep_dangling (m : KPageWidgetModel) (idx : QModelIndex)
    (h : m.rootItem.itemAt idx.path = none) : nextStep m idx = QModelIndex.invalid := by
  rcases nextStep_cases m idx with ⟨⟨x, hx⟩, _⟩ | ⟨_, hc⟩
  · simp [PageItem.itemAt, h] at hx
  · rcases hc with ⟨_, hn⟩ | ⟨r, anc, hidx, hc⟩
    · exact hn
    · rcases hc with ⟨⟨x, hx⟩, _⟩ | ⟨_, hn⟩
      · subst hidx
        obtain ⟨y, hy⟩ := PageItem.itemAt_pred _ r anc x hx
        simp [QModelIndex.path, hy] at h
      · exact hn

/-- A valid candidate of `previousStep` is fewer steps from the root. -/
theorem previousStep_valid (m : KPageWidgetModel) (idx : QModelIndex)
    (h : (previousStep m idx).isValid = true) :
    pathSteps (previousStep m idx).path < pathSteps idx.path := by
  cases idx with
  | invalid =>
    rw [previousStep_invalid] at h
    simp [QModelIndex.isValid] at h
  | valid r anc =>
    cases r with
    | zero =>
      rw [previousStep_zero]
      cases anc <;> simp [KPageWidgetModel.parent, QModelIndex.path, pathSteps]
    | succ k =>
      rw [previousStep_succ]
      cases m.rootItem.itemAt (k :: anc) with
      | some x => simp [QModelIndex.path, pathSteps]
      | none =>
        cases anc <;> simp [KPageWidgetModel.parent, QModelIndex.path, pathSteps]

/-! ## Termination of the two loops -/

theorem getNextLoop_mono (m : KPageWidgetModel) (a : QHash) (fuel : Nat) :
    ∀ (idx r : QModelIndex), getNextLoop m a fuel idx = some r →
      ∀ fuel2, fuel ≤ fuel2 → getNextLoop m a fuel2 idx = some r := by
  induction fuel with
  | zero => intro idx r h; simp [getNextLoop] at h
  | succ f ih =>
    intro idx r h fuel2 hle
    obtain ⟨g, rfl⟩ : ∃ g, fuel2 = g + 1 := ⟨fuel2 - 1, by omega⟩
    rw [getNextLoop_succ] at h ⊢
    split at h
    · rename_i hc
      rw [if_pos hc]
      exact ih _ _ h g (by omega)
    · rename_i hc
      rw [if_neg hc]
      exact h

theorem getPreviousLoop_mono (m : KPageWidgetModel) (a : QHash) (fuel : Nat) :
    ∀ (idx r : QModelIndex), getPreviousLoop m a fuel idx = some r →
      ∀ fuel2, fuel ≤ fuel2 → getPreviousLoop m a fuel2 idx = some r := by
  induction fuel with
  | zero => intro idx r h; simp [getPreviousLoop] at h
  | succ f ih =>
    intro idx r h fuel2 hle
    obtain ⟨g, rfl⟩ : ∃ g, fuel2 = g + 1 := ⟨fuel2 - 1, by omega⟩
    rw [getPreviousLoop_succ] at h ⊢
    split at h
    · rename_i hc
      rw [if_pos hc]
      exact ih _ _ h g (by omega)
    · rename_i hc
      rw [if_neg hc]
      exact h

theorem getNextLoop_resolved (m : KPageWidgetModel) (a : QHash) (fuel : Nat) :
    ∀ (idx : QModelIndex) (x : PageItem), m.rootItem.itemAt idx.path = some x →
      m.rootItem.size ≤ fuel + pathSteps idx.path →
      ∃ r, getNextLoop m a fuel idx = some r := by
  induction fuel with
  | zero =>
    intro idx x hx hle
    have h1 := PageItem.itemAt_size _ _ _ hx
    have h2 := PageItem.size_pos x
    omega
  | succ f ih =>
    intro idx x hx hle
    rw [getNextLoop_succ]
    split
    · rename_i hc
      simp only [Bool.and_eq_true] at hc
      obtain ⟨⟨y, hy⟩, hsteps, _⟩ := nextStep_valid m idx hc.1
      exact ih _ y hy (by omega)
    · exact ⟨_, rfl⟩

theorem getNextLoop_terminates (m : KPageWidgetModel) (a : QHash) (idx : QModelIndex) :
    ∃ r, getNextLoop m a m.rootItem.size idx = some r := by
  cases hx : m.rootItem.itemAt idx.path with
  | some x => exact getNextLoop_resolved m a _ idx x hx (by omega)
  | none =>
    obtain ⟨g, hg⟩ : ∃ g, m.rootItem.size = g + 1 :=
      ⟨m.rootItem.size - 1, by have := PageItem.size_pos m.rootItem; omega⟩
    rw [hg, getNextLoop_succ, nextStep_dangling m idx hx]
    simp [QModelIndex.isValid]

theorem getPreviousLoop_terminates (m : KPageWidgetModel) (a : QHash) (fuel : Nat) :
    ∀ (idx : QModelIndex), pathSteps idx.path < fuel →
      ∃ r, getPreviousLoop m a fuel idx = some r := by
  induction fuel with
  | zero => intro idx h; omega
  | succ f ih =>
    intro idx h
    rw [getPreviousLoop_succ]
    split
    · rename_i hc
      simp only [Bool.and_eq_true] at hc
      have := previousStep_valid m idx hc.1
      exact ih _ (by omega)
    · exact ⟨_, rfl⟩

/-- The result of `getNext` is the result of the loop for any number of
iterations that suffices. -/
theorem getNext_eq_of_loop (m : KPageWidgetModel) (a : QHash) (fuel : Nat)
    (idx r : QModelIndex) (h : getNextLoop m a fuel idx = some r) :
    getNext m a idx = some r := by
  obtain ⟨r2, h2⟩ := getNextLoop_terminates m a idx
  have e1 := getNextLoop_mono m a _ _ _ h (max fuel m.rootItem.size) (le_max_left _ _)
  have e2 := getNextLoop_mono m a _ _ _ h2 (max fuel m.rootItem.size) (le_max_right _ _)
  rw [e1] at e2
  rw [getNext, h2, e2]

theorem getPrevious_eq_of_loop (m : KPageWidgetModel) (a : QHash) (fuel : Nat)
    (idx r : QModelIndex) (h : getPreviousLoop m a fuel idx = some r) :
    getPrevious m a idx = some r := by
  obtain ⟨r2, h2⟩ := getPreviousLoop_terminates m a (pathSteps idx.path + 1) idx (by omega)
  have e1 := getPreviousLoop_mono m a _ _ _ h (max fuel (pathSteps idx.path + 1))
    (le_max_left _ _)
  have e2 := getPreviousLoop_mono m a _ _ _ h2 (max fuel (pathSteps idx.path + 1))
    (le_max_right _ _)
  rw [e1] at e2
  rw [getPrevious, h2, e2]

end KAssistantDialog

namespace KAssistantDialog

/-! ## Properties of the traversal on every page tree -/

theorem getNextLoop_appropriate (m : KPageWidgetModel) (a : QHash) (fuel : Nat) :
    ∀ (idx r : QModelIndex), getNextLoop m a fuel idx = some r →
      r.isValid = false ∨ a.value (m.item r) true = true := by
  induction fuel with
  | zero => intro idx r h; simp [getNextLoop] at h
  | succ f ih =>
    intro idx r h
    rw [getNextLoop_succ] at h
    split at h
    · exact ih _ _ h
    · rename_i hc
      simp only [Option.some.injEq] at h
      subst h
      cases hv : (nextStep m idx).isValid <;> cases ha : a.value (m.item (nextStep m idx)) true <;>
        simp [hv, ha] at hc ⊢

theorem getPreviousLoop_appropriate (m : KPageWidgetModel) (a : QHash) (fuel : Nat) :
    ∀ (idx r : QModelIndex), getPreviousLoop m a fuel idx = some r →
      r.isValid = false ∨ a.value (m.item r) true = true := by
  induction fuel with
  | zero => intro idx r h; simp [getPreviousLoop] at h
  | succ f ih =>
    intro idx r h
    rw [getPreviousLoop_succ] at h
    split at h
    · exact ih _ _ h
    · rename_i hc
      simp only [Option.some.injEq] at h
      subst h
      cases hv : (previousStep m idx).isValid <;>
        cases ha : a.value (m.item (previousStep m idx)) true <;>
        simp [hv, ha] at hc ⊢

theorem getPreviousLoop_of_nextStep (m : KPageWidgetModel) (a : QHash) (fuel : Nat)
    (p : QModelIndex) (h : (nextStep m p).isValid = true) :
    getPreviousLoop m a (fuel + 1) (nextStep m p) = previousFrom m a fuel p := by
  rw [getPreviousLoop_succ, (nextStep_valid m p h).2.2, previousFrom]

theorem getPreviousLoop_retraces (m : KPageWidgetModel) (a : QHash) (fuel : Nat) :
    ∀ (p q : QModelIndex), getNextLoop m a fuel p = some q → q.isValid = true →
      ∀ (g : Nat) (r : QModelIndex), previousFrom m a g p = some r →
        ∃ g2, getPreviousLoop m a g2 q = some r := by
  induction fuel with
  | zero => intro p q h; simp [getNextLoop] at h
  | succ f ih =>
    intro p q h hq g r hr
    rw [getNextLoop_succ] at h
    split at h
    · rename_i hc
      simp only [Bool.and_eq_true] at hc
      refine ih _ _ h hq (g + 1) r ?_
      rw [previousFrom, if_pos (by simp only [Bool.and_eq_true]; exact hc),
        getPreviousLoop_of_nextStep m a g p hc.1]
      exact hr
    · simp only [Option.some.injEq] at h
      subst h
      exact ⟨g + 1, by rw [getPreviousLoop_of_nextStep m a g p hq]; exact hr⟩

end KAssistantDialog

namespace KAssistantDialog

/-- C7: for every page tree, every appropriate map and every starting index, the
loop of `getNext` and the loop of `getPrevious` each return an index after
finitely many iterations: there is a result that the loop yields for every
number of iterations from a bound on (the number of nodes of the tree for
`getNext`, the number of steps of the start from the root plus one for
`getPrevious`), and it is the result of `getNext` and of `getPrevious`. -/
theorem getNext_getPrevious_total (m : KPageWidgetModel) (a : QHash) (idx : QModelIndex) :
    (∃ r, getNext m a idx = some r ∧
      ∀ k, getNextLoop m a (m.rootItem.size + k) idx = some r) ∧
    (∃ r, getPrevious m a idx = some r ∧
      ∀ k, getPreviousLoop m a (pathSteps idx.path + 1 + k) idx = some r) := by
  constructor
  · obtain ⟨r, hr⟩ := getNextLoop_terminates m a idx
    exact ⟨r, hr, fun k => getNextLoop_mono m a _ _ _ hr _ (by omega)⟩
  · obtain ⟨r, hr⟩ := getPreviousLoop_terminates m a (pathSteps idx.path + 1) idx (by omega)
    exact ⟨r, hr, fun k => getPreviousLoop_mono m a _ _ _ hr _ (by omega)⟩

/-- C2: for every page tree, every appropriate map and every starting index,
`getNext` and `getPrevious` each return an index that is either invalid
("none") or designates a page whose appropriate flag is true. -/
theorem getNext_getPrevious_appropriate (m : KPageWidgetModel) (a : QHash)
    (idx : QModelIndex) :
    (∃ r, getNext m a idx = some r ∧
      (r = QModelIndex.invalid ∨ (r.isValid = true ∧ a.value (m.item r) true = true))) ∧
    (∃ r, getPrevious m a idx = some r ∧
      (r = QModelIndex.invalid ∨ (r.isValid = true ∧ a.value (m.item r) true = true))) := by
  constructor
  · obtain ⟨r, hr⟩ := getNextLoop_terminates m a idx
    refine ⟨r, hr, ?_⟩
    rcases getNextLoop_appropriate m a _ _ _ hr with h | h
    · cases r with
      | invalid => exact Or.inl rfl
      | valid _ _ => simp [QModelIndex.isValid] at h
    · cases r with
      | invalid => exact Or.inl rfl
      | valid _ _ => exact Or.inr ⟨rfl, h⟩
  · obtain ⟨r, hr⟩ := getPreviousLoop_terminates m a (pathSteps idx.path + 1) idx (by omega)
    refine ⟨r, hr, ?_⟩
    rcases getPreviousLoop_appropriate m a _ _ _ hr with h | h
    · cases r with
      | invalid => exact Or.inl rfl
      | valid _ _ => simp [QModelIndex.isValid] at h
    · cases r with
      | invalid => exact Or.inl rfl
      | valid _ _ => exact Or.inr ⟨rfl, h⟩

/-- C10: back undoes next.  For every page tree, every appropriate map and every
index `p` whose page is appropriate, if `getNext` from `p` returns a page
`q`, then `getPrevious` from `q` returns `p`. -/
theorem getPrevious_getNext (m : KPageWidgetModel) (a : QHash) (p q : QModelIndex)
    (hp : a.value (m.item p) true = true) (hq : q.isValid = true)
    (h : getNext m a p = some q) : getPrevious m a q = some p := by
  have hfrom : previousFrom m a 0 p = some p := by
    simp [previousFrom, hp]
  obtain ⟨g, hg⟩ := getPreviousLoop_retraces m a _ p q h hq 0 p hfrom
  exact getPrevious_eq_of_loop m a g q p hg

/-- C9: skip, not prune.  When the candidate `x` that follows `current` (the first
child of `current`, or else its next sibling) is a page that is not
appropriate, and the first child `y` of `x` is an appropriate page, then
`getNext` from `current` returns `y`. -/
theorem getNext_descends_into_skipped (m : KPageWidgetModel) (a : QHash)
    (current x y : QModelIndex)
    (hx : x = if (m.index 0 0 current).isValid then m.index 0 0 current
      else m.sibling current (current.row + 1) 0)
    (hxv : x.isValid = true) (hxa : a.value (m.item x) true = false)
    (hy : y = m.index 0 0 x)
    (hyv : y.isValid = true) (hya : a.value (m.item y) true = true) :
    getNext m a current = some y := by
  have hxs : nextStep m current = x := by
    rw [hx, nextStep]
    cases (m.index 0 0 current).isValid <;> simp
  have hys : nextStep m x = y := by
    rw [hy] at hyv
    rw [hy, nextStep]
    simp [hyv]
  apply getNext_eq_of_loop m a 2
  rw [getNextLoop_succ, hxs, getNextLoop_succ, hys]
  simp [hxv, hxa, hyv, hya]

end KAssistantDialog

/-! ## Flat models -/

theorem flatModel_itemAt_top (pages : List Nat) (j : Nat) :
    (flatModel pages).rootItem.itemAt [j] = (pages.get? j).map leafPage := by
  simp [PageItem.itemAt, PageItem.child_natCast, KPageWidgetModel.rootItem, flatModel,
    PageItem.childItems, List.getElem?_map]

theorem flatModel_itemAt_sub (pages : List Nat) (k j : Nat) :
    (flatModel pages).rootItem.itemAt [k, j] = none := by
  have h : (flatModel pages).rootItem.itemAt [k, j]
      = ((flatModel pages).rootItem.itemAt [j]).bind (fun p => p.child k) := rfl
  rw [h, flatModel_itemAt_top]
  cases pages.get? j <;> simp [leafPage, PageItem.child_natCast, PageItem.childItems]

theorem flatModel_item (pages : List Nat) (j : Nat) :
    (flatModel pages).item (QModelIndex.valid j []) = pages[j]? := by
  simp only [KPageWidgetModel.item, QModelIndex.isValid, if_true,
    KPageWidgetModel.internalPointer, flatModel_itemAt_top, List.get?_eq_getElem?]
  cases pages[j]? <;> simp [leafPage, PageItem.pageWidgetItem]

namespace KAssistantDialog

theorem flatModel_nextStep (pages : List Nat) (i : Nat) :
    nextStep (flatModel pages) (QModelIndex.valid i []) =
      if i + 1 < pages.length then QModelIndex.valid (i + 1) [] else QModelIndex.invalid := by
  have hrow : (QModelIndex.valid i []).row + 1 = ((i + 1 : Nat) : Int) := by
    simp [QModelIndex.row]
  simp only [nextStep, KPageWidgetModel.index_zero, QModelIndex.path, flatModel_itemAt_sub,
    hrow, KPageWidgetModel.sibling_natCast, flatModel_itemAt_top]
  by_cases h : i + 1 < pages.length
  · simp [h, QModelIndex.isValid, List.getElem?_eq_getElem h]
  · simp [h, QModelIndex.isValid, List.getElem?_eq_none (not_lt.mp h)]

theorem flatModel_previousStep_zero (pages : List Nat) :
    previousStep (flatModel pages) (QModelIndex.valid 0 []) = QModelIndex.invalid := by
  rw [previousStep_zero]
  rfl

theorem flatModel_previousStep_succ (pages : List Nat) (k : Nat) (h : k < pages.length) :
    previousStep (flatModel pages) (QModelIndex.valid (k + 1) []) = QModelIndex.valid k [] := by
  rw [previousStep_succ, flatModel_itemAt_top]
  simp [List.getElem?_eq_getElem h]

theorem flatModel_getNextLoop_step (pages : List Nat) (a : QHash) (fuel i : Nat)
    (h : i + 1 < pages.length) :
    getNextLoop (flatModel pages) a (fuel + 1) (QModelIndex.valid i []) =
      if a.value pages[i + 1]? true = true then some (QModelIndex.valid (i + 1) [])
      else getNextLoop (flatModel pages) a fuel (QModelIndex.valid (i + 1) []) := by
  have hs : nextStep (flatModel pages) (QModelIndex.valid i []) = QModelIndex.valid (i + 1) [] := by
    rw [flatModel_nextStep, if_pos h]
  rw [getNextLoop_succ, hs, flatModel_item]
  cases a.value pages[i + 1]? true <;> simp [QModelIndex.isValid]

theorem flatModel_getNextLoop_last (pages : List Nat) (a : QHash) (fuel i : Nat)
    (h : pages.length ≤ i + 1) :
    getNextLoop (flatModel pages) a (fuel + 1) (QModelIndex.valid i []) =
      some QModelIndex.invalid := by
  have hs : nextStep (flatModel pages) (QModelIndex.valid i []) = QModelIndex.invalid := by
    rw [flatModel_nextStep, if_neg (by omega)]
  rw [getNextLoop_succ, hs]
  simp [QModelIndex.isValid]

theorem flatModel_getPreviousLoop_step (pages : List Nat) (a : QHash) (fuel k : Nat)
    (h : k < pages.length) :
    getPreviousLoop (flatModel pages) a (fuel + 1) (QModelIndex.valid (k + 1) []) =
      if a.value pages[k]? true = true then some (QModelIndex.valid k [])
      else getPreviousLoop (flatModel pages) a fuel (QModelIndex.valid k []) := by
  rw [getPreviousLoop_succ, flatModel_previousStep_succ pages k h, flatModel_item]
  cases a.value pages[k]? true <;> simp [QModelIndex.isValid]

theorem flatModel_getPreviousLoop_first (pages : List Nat) (a : QHash) (fuel : Nat) :
    getPreviousLoop (flatModel pages) a (fuel + 1) (QModelIndex.valid 0 []) =
      some QModelIndex.invalid := by
  rw [getPreviousLoop_succ, flatModel_previousStep_zero]
  simp [QModelIndex.isValid]

theorem flatModel_getNextLoop_found (pages : List Nat) (a : QHash) (d : Nat) :
    ∀ i j, j = i + d + 1 → j < pages.length → a.value pages[j]? true = true →
      (∀ k, i < k → k < j → a.value pages[k]? true = false) →
      getNextLoop (flatModel pages) a (d + 1) (QModelIndex.valid i []) =
        some (QModelIndex.valid j []) := by
  induction d with
  | zero =>
    intro i j hj hlt hap _
    subst hj
    rw [flatModel_getNextLoop_step pages a 0 i (by omega), if_pos hap]
  | succ d ih =>
    intro i j hj hlt hap hskip
    have h1 := hskip (i + 1) (by omega) (by omega)
    rw [flatModel_getNextLoop_step pages a (d + 1) i (by omega), if_neg (by simp [h1])]
    exact ih (i + 1) j (by omega) hlt hap (fun k hk1 hk2 => hskip k (by omega) hk2)

theorem flatModel_getNextLoop_none (pages : List Nat) (a : QHash) (d : Nat) :
    ∀ i, pages.length = i + 1 + d →
      (∀ k, i < k → k < pages.length → a.value pages[k]? true = false) →
      getNextLoop (flatModel pages) a (d + 1) (QModelIndex.valid i []) =
        some QModelIndex.invalid := by
  induction d with
  | zero =>
    intro i hn _
    exact flatModel_getNextLoop_last pages a 0 i (by omega)
  | succ d ih =>
    intro i hn hskip
    have h1 := hskip (i + 1) (by omega) (by omega)
    rw [flatModel_getNextLoop_step pages a (d + 1) i (by omega), if_neg (by simp [h1])]
    exact ih (i + 1) (by omega) (fun k hk1 hk2 => hskip k (by omega) hk2)

theorem flatModel_getPreviousLoop_found (pages : List Nat) (a : QHash) (d : Nat) :
    ∀ i j, i = j + d + 1 → i < pages.length → a.value pages[j]? true = true →
      (∀ k, j < k → k < i → a.value pages[k]? true = false) →
      getPreviousLoop (flatModel pages) a (d + 1) (QModelIndex.valid i []) =
        some (QModelIndex.valid j []) := by
  induction d with
  | zero =>
    intro i j hi hlt hap _
    subst hi
    rw [flatModel_getPreviousLoop_step pages a 0 j (by omega), if_pos hap]
  | succ d ih =>
    intro i j hi hlt hap hskip
    subst hi
    have h1 := hskip (j + d + 1) (by omega) (by omega)
    have e : j + (d + 1) + 1 = (j + d + 1) + 1 := by omega
    rw [e, flatModel_getPreviousLoop_step pages a (d + 1) (j + d + 1) (by omega),
      if_neg (by simp [h1])]
    exact ih (j + d + 1) j rfl (by omega) hap (fun k hk1 hk2 => hskip k hk1 (by omega))

theorem flatModel_getPreviousLoop_none (pages : List Nat) (a : QHash) (i : Nat) :
    i < pages.length → (∀ k, k < i → a.value pages[k]? true = false) →
      getPreviousLoop (flatModel pages) a (i + 1) (QModelIndex.valid i []) =
        some QModelIndex.invalid := by
  induction i with
  | zero =>
    intro _ _
    exact flatModel_getPreviousLoop_first pages a 0
  | succ i ih =>
    intro hlt hskip
    have h1 := hskip i (by omega)
    rw [flatModel_getPreviousLoop_step pages a (i + 1) i (by omega), if_neg (by simp [h1])]
    exact ih (by omega) (fun k hk => hskip k (by omega))

end KAssistantDialog

namespace KAssistantDialog

/-- C1: in the flat model of a list of pages, where page `j` has the index
`valid j []`, `getNext` from page `i` returns the page with the smallest index
`j > i` whose appropriate flag is true, and the invalid index ("none") when
there is no such page; `getPrevious` from page `i` returns the page with the
largest index `j < i` whose appropriate flag is true, and the invalid index
when there is none.  When every page is appropriate, `getNext` from `i` is
page `i + 1`, or "none" for the last page, and `getPrevious` from `i` is page
`i - 1`, or "none" for the first page. -/
theorem flatModel_getNext_getPrevious (pages : List Nat) (a : QHash) (i : Nat)
    (hi : i < pages.length) :
    (∀ j, (flatModel pages).item (QModelIndex.valid j []) = pages[j]?) ∧
    (∀ j, i < j → j < pages.length → a.value pages[j]? true = true →
      (∀ k, i < k → k < j → a.value pages[k]? true = false) →
      getNext (flatModel pages) a (QModelIndex.valid i []) = some (QModelIndex.valid j [])) ∧
    ((∀ k, i < k → k < pages.length → a.value pages[k]? true = false) →
      getNext (flatModel pages) a (QModelIndex.valid i []) = some QModelIndex.invalid) ∧
    (∀ j, j < i → a.value pages[j]? true = true →
      (∀ k, j < k → k < i → a.value pages[k]? true = false) →
      getPrevious (flatModel pages) a (QModelIndex.valid i []) = some (QModelIndex.valid j [])) ∧
    ((∀ k, k < i → a.value pages[k]? true = false) →
      getPrevious (flatModel pages) a (QModelIndex.valid i []) = some QModelIndex.invalid) ∧
    ((∀ k, k < pages.length → a.value pages[k]? true = true) →
      getNext (flatModel pages) a (QModelIndex.valid i []) =
        (if i + 1 < pages.length then some (QModelIndex.valid (i + 1) [])
          else some QModelIndex.invalid) ∧
      getPrevious (flatModel pages) a (QModelIndex.valid i []) =
        (if 0 < i then some (QModelIndex.valid (i - 1) []) else some QModelIndex.invalid)) := by
  refine ⟨flatModel_item pages, ?_, ?_, ?_, ?_, ?_⟩
  · intro j hij hj hap hskip
    exact getNext_eq_of_loop _ _ _ _ _
      (flatModel_getNextLoop_found pages a (j - i - 1) i j (by omega) hj hap hskip)
  · intro hskip
    exact getNext_eq_of_loop _ _ _ _ _
      (flatModel_getNextLoop_none pages a (pages.length - i - 1) i (by omega) hskip)
  · intro j hji hap hskip
    exact getPrevious_eq_of_loop _ _ _ _ _
      (flatModel_getPreviousLoop_found pages a (i - j - 1) i j (by omega) hi hap hskip)
  · intro hskip
    exact getPrevious_eq_of_loop _ _ _ _ _ (flatModel_getPreviousLoop_none pages a i hi hskip)
  · intro hall
    constructor
    · by_cases h : i + 1 < pages.length
      · rw [if_pos h]
        exact getNext_eq_of_loop _ _ _ _ _
          (flatModel_getNextLoop_found pages a 0 i (i + 1) rfl h (hall _ h)
            (fun k h1 h2 => by omega))
      · rw [if_neg h]
        exact getNext_eq_of_loop _ _ _ _ _
          (flatModel_getNextLoop_last pages a 0 i (by omega))
    · by_cases h : 0 < i
      · rw [if_pos h]
        exact getPrevious_eq_of_loop _ _ _ _ _
          (flatModel_getPreviousLoop_found pages a 0 i (i - 1) (by omega) hi
            (hall _ (by omega)) (fun k h1 h2 => by omega))
      · rw [if_neg h]
        obtain rfl : i = 0 := by omega
        exact getPrevious_eq_of_loop _ _ _ _ _ (flatModel_getPreviousLoop_first pages a 0)

/-- Witness for C1: pages [1, 2, 3] with page 2 marked not appropriate; `getNext`
from page 1 returns page 3 and `getPrevious` from page 3 returns page 1. -/
theorem flatModel_getNext_getPrevious_witness :
    (0 < [1, 2, 3].length ∧ 2 < [1, 2, 3].length) ∧
    getNext (flatModel [1, 2, 3]) (QHash.empty.insert (some 2) false) (QModelIndex.valid 0 [])
      = some (QModelIndex.valid 2 []) ∧
    getPrevious (flatModel [1, 2, 3]) (QHash.empty.insert (some 2) false)
      (QModelIndex.valid 2 []) = some (QModelIndex.valid 0 []) :=
  ⟨⟨by decide, by decide⟩,
    (flatModel_getNext_getPrevious [1, 2, 3] (QHash.empty.insert (some 2) false) 0
      (by decide)).2.1 2 (by decide) (by decide) (by decide)
      (fun k h1 h2 => by obtain rfl : k = 1 := by omega
                         decide),
    (flatModel_getNext_getPrevious [1, 2, 3] (QHash.empty.insert (some 2) false) 2
      (by decide)).2.2.2.1 0 (by decide) (by decide)
      (fun k h1 h2 => by obtain rfl : k = 1 := by omega
                         decide)⟩

/-- Witness for C10: in the model with sub-pages where page 2 is marked not
appropriate, `getNext` from page 1 passes over page 2 to its sub-page 3, and
`getPrevious` from page 3 leads back to page 1. -/
theorem getPrevious_getNext_witness :
    getNext skipModel (QHash.empty.insert (some 2) false) (QModelIndex.valid 0 [])
      = some (QModelIndex.valid 0 [0, 0]) ∧
    getPrevious skipModel (QHash.empty.insert (some 2) false) (QModelIndex.valid 0 [0, 0])
      = some (QModelIndex.valid 0 []) :=
  ⟨by decide,
    getPrevious_getNext skipModel (QHash.empty.insert (some 2) false)
      (QModelIndex.valid 0 []) (QModelIndex.valid 0 [0, 0]) (by decide) (by decide)
      (by decide)⟩

/-- Witness for C9: in the model with sub-pages where page 2, the first child of
page 1, is marked not appropriate, `getNext` from page 1 returns page 3, the
first child of page 2, and not page 4, the next sibling of page 2. -/
theorem getNext_descends_into_skipped_witness :
    skipModel.item (QModelIndex.valid 0 [0, 0]) = some 3 ∧
    skipModel.item (QModelIndex.valid 1 [0]) = some 4 ∧
    getNext skipModel (QHash.empty.insert (some 2) false) (QModelIndex.valid 0 [])
      = some (QModelIndex.valid 0 [0, 0]) :=
  ⟨by decide, by decide,
    getNext_descends_into_skipped skipModel (QHash.empty.insert (some 2) false)
      (QModelIndex.valid 0 []) (QModelIndex.valid 0 [0]) (QModelIndex.valid 0 [0, 0])
      (by decide) (by decide) (by decide) (by decide) (by decide) (by decide)⟩

/-- Counterexample for C8: with a single page, `getNext` applied to the invalid
index returns that page and not the invalid index. -/
theorem getNext_invalid_counterexample :
    getNext (flatModel [1]) QHash.empty QModelIndex.invalid = some (QModelIndex.valid 0 []) ∧
    (flatModel [1]).item (QModelIndex.valid 0 []) = some 1 ∧
    ¬ (getNext (flatModel [1]) QHash.empty QModelIndex.invalid = some QModelIndex.invalid) := by
  decide

/-- C8, amended: `getPrevious` applied to the invalid index returns the invalid
index, for every page tree and appropriate map.  `getNext` applied to the
invalid index returns the invalid index when the model has no page;
otherwise it starts at the first top-level page: it returns that page when
the page is appropriate, and else the result of `getNext` from that page. -/
theorem getNext_getPrevious_invalid (m : KPageWidgetModel) (a : QHash) :
    getPrevious m a QModelIndex.invalid = some QModelIndex.invalid ∧
    (m.topLevel = [] → getNext m a QModelIndex.invalid = some QModelIndex.invalid) ∧
    (∀ c cs, m.topLevel = c :: cs →
      m.item (QModelIndex.valid 0 []) = c.pageWidgetItem ∧
      getNext m a QModelIndex.invalid =
        if a.value c.pageWidgetItem true = true then some (QModelIndex.valid 0 [])
        else getNext m a (QModelIndex.valid 0 [])) := by
  refine ⟨?_, ?_, ?_⟩
  · apply getPrevious_eq_of_loop m a 1
    rw [getPreviousLoop_succ, previousStep_invalid]
    simp [QModelIndex.isValid]
  · intro h
    apply getNext_eq_of_loop m a 1
    have hc : m.rootItem.itemAt [0] = none := by
      have := PageItem.child_natCast m.rootItem 0
      simp [PageItem.itemAt, KPageWidgetModel.rootItem, h, PageItem.childItems] at this ⊢
      exact this
    have hs : nextStep m QModelIndex.invalid = QModelIndex.invalid := by
      simp [nextStep, KPageWidgetModel.index_zero, QModelIndex.path, hc,
        KPageWidgetModel.sibling, QModelIndex.isValid]
    rw [getNextLoop_succ, hs]
    simp [QModelIndex.isValid]
  · intro c cs h
    have hc : m.rootItem.itemAt [0] = some c := by
      have := PageItem.child_natCast m.rootItem 0
      simp [PageItem.itemAt, KPageWidgetModel.rootItem, h, PageItem.childItems] at this ⊢
      exact this
    have hs : nextStep m QModelIndex.invalid = QModelIndex.valid 0 [] := by
      simp [nextStep, KPageWidgetModel.index_zero, QModelIndex.path, hc, QModelIndex.isValid]
    have hi : m.item (QModelIndex.valid 0 []) = c.pageWidgetItem := by
      simp [KPageWidgetModel.item, QModelIndex.isValid, KPageWidgetModel.internalPointer, hc]
    refine ⟨hi, ?_⟩
    by_cases hap : a.value c.pageWidgetItem true = true
    · rw [if_pos hap]
      apply getNext_eq_of_loop m a 1
      rw [getNextLoop_succ, hs, hi]
      simp [hap]
    · rw [if_neg hap]
      obtain ⟨r, hr⟩ := getNextLoop_terminates m a (QModelIndex.valid 0 [])
      rw [show getNext m a (QModelIndex.valid 0 []) = some r from hr]
      apply getNext_eq_of_loop m a (m.rootItem.size + 1)
      rw [getNextLoop_succ, hs, hi]
      simp [hap, QModelIndex.isValid]
      exact hr

/-- Witness for C8, amended: on the empty model `getNext` from the invalid index
is the invalid index, and on the flat model of pages [1, 2] with page 1
marked not appropriate it is what `getNext` from page 1 returns. -/
theorem getNext_getPrevious_invalid_witness :
    getNext (flatModel []) QHash.empty QModelIndex.invalid = some QModelIndex.invalid ∧
    getNext (flatModel [1, 2]) (QHash.empty.insert (some 1) false) QModelIndex.invalid =
      getNext (flatModel [1, 2]) (QHash.empty.insert (some 1) false) (QModelIndex.valid 0 []) :=
  ⟨(getNext_getPrevious_invalid (flatModel []) QHash.empty).2.1 rfl,
    ((getNext_getPrevious_invalid (flatModel [1, 2]) (QHash.empty.insert (some 1) false)).2.2
      (leafPage 1) [leafPage 2] rfl).2⟩

end KAssistantDialog

namespace KAssistantDialog

/-- C3, the input on which the code departs from the claim: in the model of the
top-level pages 1 and 3 where page 1 has the single sub-page 2, all pages
appropriate, `getNext` from page 2 returns the invalid index, while the
depth-first successor search of the spec returns page 3; for page 1, which
has a child, both return page 2. -/
theorem getNext_misses_ancestor_sibling :
    nestedModel.indexOf (some 2) = QModelIndex.valid 0 [0] ∧
    nestedModel.indexOf (some 3) = QModelIndex.valid 1 [] ∧
    getNext nestedModel QHash.empty (nestedModel.indexOf (some 2)) = some QModelIndex.invalid ∧
    preorderSearch nestedModel QHash.empty 1 (nestedModel.indexOf (some 2))
      = some (nestedModel.indexOf (some 3)) ∧
    getNext nestedModel QHash.empty (nestedModel.indexOf (some 1))
      = some (nestedModel.indexOf (some 2)) ∧
    preorderSearch nestedModel QHash.empty 1 (nestedModel.indexOf (some 1))
      = some (nestedModel.indexOf (some 2)) := by
  decide

/-! ## The dialog -/

theorem slotUpdateButtons_eq (d : KAssistantDialog) :
    ∃ n p, getNext d.pageModel d.appropriate (d.pageModel.indexOf d.currentPage) = some n ∧
      getPrevious d.pageModel d.appropriate (d.pageModel.indexOf d.currentPage) = some p ∧
      _k_slotUpdateButtons d = some
        { d with
          finishEnabled := !n.isValid && d.isValid d.currentPage
          nextEnabled := n.isValid && d.isValid d.currentPage
          finishDefault := !n.isValid
          nextDefault := n.isValid
          backEnabled := p.isValid } := by
  obtain ⟨n, hn⟩ := getNextLoop_terminates d.pageModel d.appropriate
    (d.pageModel.indexOf d.currentPage)
  obtain ⟨p, hp⟩ := getPreviousLoop_terminates d.pageModel d.appropriate
    (pathSteps (d.pageModel.indexOf d.currentPage).path + 1)
    (d.pageModel.indexOf d.currentPage) (by omega)
  have hn2 : getNext d.pageModel d.appropriate (d.pageModel.indexOf d.currentPage) = some n := hn
  have hp2 : getPrevious d.pageModel d.appropriate (d.pageModel.indexOf d.currentPage)
      = some p := hp
  refine ⟨n, p, hn2, hp2, ?_⟩
  simp [_k_slotUpdateButtons, hn2, hp2, isValid]

/-- C4: `_k_slotUpdateButtons` returns, and in the state it returns Finish is
enabled exactly when `getNext` from the current page is the invalid index
and the current page is valid, Next is enabled exactly when `getNext` from
the current page is a page and the current page is valid, and Back is
enabled exactly when `getPrevious` from the current page is a page; Finish
and Next are never both enabled, and both are disabled unless the current
page is valid. -/
theorem slotUpdateButtons_state (d : KAssistantDialog) :
    ∃ n p u, getNext d.pageModel d.appropriate (d.pageModel.indexOf d.currentPage) = some n ∧
      getPrevious d.pageModel d.appropriate (d.pageModel.indexOf d.currentPage) = some p ∧
      _k_slotUpdateButtons d = some u ∧
      (u.finishEnabled = true ↔ (n = QModelIndex.invalid ∧ d.isValid d.currentPage = true)) ∧
      (u.nextEnabled = true ↔ (n.isValid = true ∧ d.isValid d.currentPage = true)) ∧
      (u.backEnabled = true ↔ p.isValid = true) ∧
      ¬ (u.finishEnabled = true ∧ u.nextEnabled = true) ∧
      (d.isValid d.currentPage = true ∨ (u.finishEnabled = false ∧ u.nextEnabled = false)) := by
  obtain ⟨n, p, hn, hp, hu⟩ := slotUpdateButtons_eq d
  refine ⟨n, p, _, hn, hp, hu, ?_⟩
  cases n <;> cases hv : d.isValid d.currentPage <;> simp [QModelIndex.isValid]

end KAssistantDialog

namespace KAssistantDialog

theorem slotUpdateButtons_fields (d : KAssistantDialog) :
    ∃ u, _k_slotUpdateButtons d = some u ∧ u.valid = d.valid ∧
      u.appropriate = d.appropriate ∧ u.pageModel = d.pageModel ∧
      u.currentPage = d.currentPage ∧ u.accepted = d.accepted := by
  obtain ⟨n, p, _, _, hu⟩ := slotUpdateButtons_eq d
  exact ⟨_, hu, rfl, rfl, rfl, rfl, rfl⟩

theorem setCurrentPage_fields (d : KAssistantDialog) (page : Option Nat) :
    ∃ u, setCurrentPage d page = some u ∧ u.valid = d.valid ∧
      u.appropriate = d.appropriate ∧ u.pageModel = d.pageModel ∧
      u.currentPage = page ∧ u.accepted = d.accepted := by
  obtain ⟨u, hu, h1, h2, h3, h4, h5⟩ := slotUpdateButtons_fields { d with currentPage := page }
  exact ⟨u, hu, h1, h2, h3, h4, h5⟩

theorem back_result (d : KAssistantDialog) (p : QModelIndex)
    (hp : getPrevious d.pageModel d.appropriate (d.pageModel.indexOf d.currentPage) = some p) :
    ∃ b, back d = some b ∧ b.valid = d.valid ∧ b.appropriate = d.appropriate ∧
      (if p.isValid = true then
        b.currentPage = d.pageModel.item p ∧ b.pageModel = d.pageModel ∧ b.accepted = d.accepted
       else b = d) := by
  by_cases hv : p.isValid = true
  · obtain ⟨u, hu, h1, h2, h3, h4, h5⟩ := setCurrentPage_fields d (d.pageModel.item p)
    refine ⟨u, ?_, h1, h2, ?_⟩
    · simp [back, hp, hv, hu]
    · rw [if_pos hv]
      exact ⟨h4, h3, h5⟩
  · refine ⟨d, ?_, rfl, rfl, ?_⟩
    · simp [back, hp, hv]
    · rw [if_neg hv]

theorem next_result (d : KAssistantDialog) (n : QModelIndex)
    (hn : getNext d.pageModel d.appropriate (d.pageModel.indexOf d.currentPage) = some n) :
    ∃ x, next d = some x ∧ x.valid = d.valid ∧ x.appropriate = d.appropriate ∧
      (if n.isValid = true then
        x.currentPage = d.pageModel.item n ∧ x.pageModel = d.pageModel ∧ x.accepted = d.accepted
       else if d.isValid d.currentPage = true then x = { d with accepted := true }
       else x = d) := by
  by_cases hv : n.isValid = true
  · obtain ⟨u, hu, h1, h2, h3, h4, h5⟩ := setCurrentPage_fields d (d.pageModel.item n)
    refine ⟨u, ?_, h1, h2, ?_⟩
    · simp [next, hn, hv, hu]
    · rw [if_pos hv]
      exact ⟨h4, h3, h5⟩
  · by_cases hc : d.isValid d.currentPage = true
    · refine ⟨{ d with accepted := true }, ?_, rfl, rfl, ?_⟩
      · simp [next, hn, hv, hc, accept]
      · rw [if_neg hv, if_pos hc]
    · refine ⟨d, ?_, rfl, rfl, ?_⟩
      · simp [next, hn, hv, hc]
      · rw [if_neg hv, if_neg hc]

theorem back_fields (d : KAssistantDialog) :
    ∃ b, back d = some b ∧ b.valid = d.valid ∧ b.appropriate = d.appropriate := by
  obtain ⟨n, p, _, hp, _⟩ := slotUpdateButtons_eq d
  obtain ⟨b, hb1, hb2, hb3, _⟩ := back_result d p hp
  exact ⟨b, hb1, hb2, hb3⟩

theorem next_fields (d : KAssistantDialog) :
    ∃ x, next d = some x ∧ x.valid = d.valid ∧ x.appropriate = d.appropriate := by
  obtain ⟨n, p, hn, _, _⟩ := slotUpdateButtons_eq d
  obtain ⟨x, hx1, hx2, hx3, _⟩ := next_result d n hn
  exact ⟨x, hx1, hx2, hx3⟩

/-- C5: `back` and `next` as steps on the state.  Both return.  `back` makes
the page of `getPrevious` the current page when that is a page (model and
accepted flag unchanged) and otherwise leaves the whole state unchanged.
`next` makes the page of `getNext` the current page when that is a page,
whatever the validity of the current page; otherwise it accepts the dialog
when the current page is valid, and otherwise it leaves the whole state
unchanged.  Neither changes the valid map or the appropriate map. -/
theorem back_next_step (d : KAssistantDialog) :
    ∃ p n b x,
      getPrevious d.pageModel d.appropriate (d.pageModel.indexOf d.currentPage) = some p ∧
      getNext d.pageModel d.appropriate (d.pageModel.indexOf d.currentPage) = some n ∧
      back d = some b ∧ next d = some x ∧
      b.valid = d.valid ∧ b.appropriate = d.appropriate ∧
      x.valid = d.valid ∧ x.appropriate = d.appropriate ∧
      (if p.isValid = true then
        b.currentPage = d.pageModel.item p ∧ b.pageModel = d.pageModel ∧ b.accepted = d.accepted
       else b = d) ∧
      (if n.isValid = true then
        x.currentPage = d.pageModel.item n ∧ x.pageModel = d.pageModel ∧ x.accepted = d.accepted
       else if d.isValid d.currentPage = true then x = { d with accepted := true }
       else x = d) := by
  obtain ⟨n, p, hn, hp, _⟩ := slotUpdateButtons_eq d
  obtain ⟨b, hb1, hb2, hb3, hb4⟩ := back_result d p hp
  obtain ⟨x, hx1, hx2, hx3, hx4⟩ := next_result d n hn
  exact ⟨p, n, b, x, hp, hn, hb1, hx1, hb2, hb3, hx2, hx3, hb4, hx4⟩

/-! ## The flag maps -/

theorem setValid_fields (d : KAssistantDialog) (page : Option Nat) (enable : Bool) :
    ∃ u, setValid d page enable = some u ∧ u.valid = d.valid.insert page enable ∧
      u.appropriate = d.appropriate := by
  by_cases hc : page = d.currentPage
  · obtain ⟨u, hu, h1, h2, _⟩ :=
      slotUpdateButtons_fields { d with valid := d.valid.insert page enable }
    exact ⟨u, by simp only [setValid, if_pos hc]; exact hu, h1, h2⟩
  · exact ⟨{ d with valid := d.valid.insert page enable },
      by simp only [setValid, if_neg hc], rfl, rfl⟩

theorem setAppropriate_fields (d : KAssistantDialog) (page : Option Nat) (appropriate : Bool) :
    ∃ u, setAppropriate d page appropriate = some u ∧ u.valid = d.valid ∧
      u.appropriate = d.appropriate.insert page appropriate := by
  obtain ⟨u, hu, h1, h2, _⟩ :=
    slotUpdateButtons_fields { d with appropriate := d.appropriate.insert page appropriate }
  exact ⟨u, hu, h1, h2⟩

theorem applyAll_isValid (calls : List DialogCall) (p : Option Nat) :
    ∀ d : KAssistantDialog, (∀ b, DialogCall.setValid p b ∉ calls) → d.isValid p = true →
      ∃ u, DialogCall.applyAll calls d = some u ∧ u.isValid p = true := by
  induction calls with
  | nil => intro d _ hd; exact ⟨d, rfl, hd⟩
  | cons c cs ih =>
    intro d hno hd
    have hcs : ∀ b, DialogCall.setValid p b ∉ cs := fun b hb => hno b (List.mem_cons_of_mem _ hb)
    cases c with
    | setValid page enable =>
      have hne : p ≠ page := by
        intro he
        exact hno enable (by rw [he]; exact List.mem_cons_self _ _)
      obtain ⟨u, hu, h1, _⟩ := setValid_fields d page enable
      obtain ⟨w, hw, hwp⟩ := ih u hcs (by
        rw [isValid, h1, QHash.value_insert_other _ _ _ _ _ hne]
        exact hd)
      exact ⟨w, by simp [DialogCall.applyAll, DialogCall.apply, hu, hw], hwp⟩
    | setAppropriate page appropriate =>
      obtain ⟨u, hu, h1, _⟩ := setAppropriate_fields d page appropriate
      obtain ⟨w, hw, hwp⟩ := ih u hcs (by rw [isValid, h1]; exact hd)
      exact ⟨w, by simp [DialogCall.applyAll, DialogCall.apply, hu, hw], hwp⟩
    | back =>
      obtain ⟨u, hu, h1, _⟩ := back_fields d
      obtain ⟨w, hw, hwp⟩ := ih u hcs (by rw [isValid, h1]; exact hd)
      exact ⟨w, by simp [DialogCall.applyAll, DialogCall.apply, hu, hw], hwp⟩
    | next =>
      obtain ⟨u, hu, h1, _⟩ := next_fields d
      obtain ⟨w, hw, hwp⟩ := ih u hcs (by rw [isValid, h1]; exact hd)
      exact ⟨w, by simp [DialogCall.applyAll, DialogCall.apply, hu, hw], hwp⟩

theorem applyAll_isAppropriate (calls : List DialogCall) (p : Option Nat) :
    ∀ d : KAssistantDialog, (∀ b, DialogCall.setAppropriate p b ∉ calls) →
      d.isAppropriate p = true →
      ∃ u, DialogCall.applyAll calls d = some u ∧ u.isAppropriate p = true := by
  induction calls with
  | nil => intro d _ hd; exact ⟨d, rfl, hd⟩
  | cons c cs ih =>
    intro d hno hd
    have hcs : ∀ b, DialogCall.setAppropriate p b ∉ cs :=
      fun b hb => hno b (List.mem_cons_of_mem _ hb)
    cases c with
    | setValid page enable =>
      obtain ⟨u, hu, _, h2⟩ := setValid_fields d page enable
      obtain ⟨w, hw, hwp⟩ := ih u hcs (by rw [isAppropriate, h2]; exact hd)
      exact ⟨w, by simp [DialogCall.applyAll, DialogCall.apply, hu, hw], hwp⟩
    | setAppropriate page appropriate =>
      have hne : p ≠ page := by
        intro he
        exact hno appropriate (by rw [he]; exact List.mem_cons_self _ _)
      obtain ⟨u, hu, _, h2⟩ := setAppropriate_fields d page appropriate
      obtain ⟨w, hw, hwp⟩ := ih u hcs (by
        rw [isAppropriate, h2, QHash.value_insert_other _ _ _ _ _ hne]
        exact hd)
      exact ⟨w, by simp [DialogCall.applyAll, DialogCall.apply, hu, hw], hwp⟩
    | back =>
      obtain ⟨u, hu, _, h2⟩ := back_fields d
      obtain ⟨w, hw, hwp⟩ := ih u hcs (by rw [isAppropriate, h2]; exact hd)
      exact ⟨w, by simp [DialogCall.applyAll, DialogCall.apply, hu, hw], hwp⟩
    | next =>
      obtain ⟨u, hu, _, h2⟩ := next_fields d
      obtain ⟨w, hw, hwp⟩ := ih u hcs (by rw [isAppropriate, h2]; exact hd)
      exact ⟨w, by simp [DialogCall.applyAll, DialogCall.apply, hu, hw], hwp⟩

/-- C6: the flag maps are maps with default true, updated pointwise.  In a
dialog just constructed and then subjected to any sequence of calls of
`setValid`, `setAppropriate`, `back` and `next`, none of which is `setValid`
on `p`, `isValid p` is true; likewise for
`setAppropriate` and `isAppropriate`.  `setValid d p b` returns a state in
which `isValid p = b`, `isValid q` is unchanged for every `q ≠ p`, and
`isAppropriate` is unchanged for every page; symmetrically for
`setAppropriate`. -/
theorem flags_default_true_pointwise :
    (∀ (pm : KPageWidgetModel) (cur : Option Nat) (calls : List DialogCall) (p : Option Nat),
      (∀ b, DialogCall.setValid p b ∉ calls) →
      ∃ u, DialogCall.applyAll calls (create pm cur) = some u ∧ u.isValid p = true) ∧
    (∀ (pm : KPageWidgetModel) (cur : Option Nat) (calls : List DialogCall) (p : Option Nat),
      (∀ b, DialogCall.setAppropriate p b ∉ calls) →
      ∃ u, DialogCall.applyAll calls (create pm cur) = some u ∧ u.isAppropriate p = true) ∧
    (∀ (d : KAssistantDialog) (p : Option Nat) (b : Bool),
      ∃ u, setValid d p b = some u ∧ u.isValid p = b ∧
        (∀ q, q ≠ p → u.isValid q = d.isValid q) ∧
        (∀ q, u.isAppropriate q = d.isAppropriate q)) ∧
    (∀ (d : KAssistantDialog) (p : Option Nat) (b : Bool),
      ∃ u, setAppropriate d p b = some u ∧ u.isAppropriate p = b ∧
        (∀ q, q ≠ p → u.isAppropriate q = d.isAppropriate q) ∧
        (∀ q, u.isValid q = d.isValid q)) := by
  refine ⟨?_, ?_, ?_, ?_⟩
  · intro pm cur calls p hno
    exact applyAll_isValid calls p (create pm cur) hno rfl
  · intro pm cur calls p hno
    exact applyAll_isAppropriate calls p (create pm cur) hno rfl
  · intro d p b
    obtain ⟨u, hu, h1, h2⟩ := setValid_fields d p b
    refine ⟨u, hu, ?_, ?_, ?_⟩
    · rw [isValid, h1, QHash.value_insert_same]
    · intro q hq
      rw [isValid, h1, QHash.value_insert_other _ _ _ _ _ hq, isValid]
    · intro q
      rw [isAppropriate, h2, isAppropriate]
  · intro d p b
    obtain ⟨u, hu, h1, h2⟩ := setAppropriate_fields d p b
    refine ⟨u, hu, ?_, ?_, ?_⟩
    · rw [isAppropriate, h2, QHash.value_insert_same]
    · intro q hq
      rw [isAppropriate, h2, QHash.value_insert_other _ _ _ _ _ hq, isAppropriate]
    · intro q
      rw [isValid, h1, isValid]

/-- Witness for C6: after `setValid` on page 2, `next` and `setAppropriate` on
page 1 in a new dialog, page 1 is still valid and page 2 is still
appropriate. -/
theorem flags_default_true_pointwise_witness :
    (∃ u, DialogCall.applyAll
        [DialogCall.setValid (some 2) false, DialogCall.next,
          DialogCall.setAppropriate (some 1) false]
        (create (flatModel [1, 2]) (some 1)) = some u ∧ u.isValid (some 1) = true) ∧
    (∃ u, DialogCall.applyAll
        [DialogCall.setValid (some 2) false, DialogCall.next,
          DialogCall.setAppropriate (some 1) false]
        (create (flatModel [1, 2]) (some 1)) = some u ∧ u.isAppropriate (some 2) = true) :=
  ⟨flags_default_true_pointwise.1 (flatModel [1, 2]) (some 1)
      [DialogCall.setValid (some 2) false, DialogCall.next,
          DialogCall.setAppropriate (some 1) false] (some 1)
      (fun b => by cases b <;> decide),
    flags_default_true_pointwise.2.1 (flatModel [1, 2]) (some 1)
      [DialogCall.setValid (some 2) false, DialogCall.next,
          DialogCall.setAppropriate (some 1) false] (some 2)
      (fun b => by cases b <;> decide)⟩

end KAssistantDialog
